import Mathlib

/-!
Verification development for the warframe-trade-tool backend core
(`src/backend/app/services/`): the pricing engine (`pricing.py`), the
market client (`market_client.py`), the scheduler (`scheduler.py`) and the
WebSocket connection manager (`ws_manager.py`).

Python numeric values (floats and ints used as prices, fees, delays) are
embedded as rationals `ℚ`, with arithmetic exact.  Python dictionaries that
are only read through `.get(key, default)` are embedded as total functions.
Fallible operations are embedded with `Option`.
-/

set_option maxHeartbeats 1000000

namespace WTT

/-- Python `int()` truncation toward zero, on a rational. -/
def pyInt (q : ℚ) : ℤ :=
  if q < 0 then -(Int.floor (-q)) else Int.floor q

/-- List indexing by an integer index, out-of-range giving 0.  Python's
negative-index wraparound is not modelled: every claim below stays in the
domain where the computed indices are nonnegative and in range. -/
def idxD (l : List ℚ) (i : ℤ) : ℚ :=
  if i < 0 then 0 else l.getD i.toNat 0

/-- Embedding of `calculate_percentile` (pricing.py lines 11-34): sort a copy,
take rank `percentile / 100 * (n - 1)`, truncate to `lower_idx`, clamp
`upper_idx = min (lower_idx + 1) (n - 1)` and interpolate linearly. -/
def calculate_percentile (values : List ℚ) (percentile : ℚ) : ℚ :=
  if values.isEmpty then 0
  else
    let sorted_values := List.insertionSort (· ≤ ·) values
    let n : ℤ := sorted_values.length
    let rank : ℚ := percentile / 100 * ((n : ℚ) - 1)
    let lower_idx : ℤ := pyInt rank
    let upper_idx : ℤ := min (lower_idx + 1) (n - 1)
    let fraction : ℚ := rank - (lower_idx : ℚ)
    idxD sorted_values lower_idx
      + fraction * (idxD sorted_values upper_idx - idxD sorted_values lower_idx)

/-- The spec's wording of the percentile: rank = p/100 * (n-1), interpolating
between the floor and the ceil rank of a sorted copy; empty input gives 0. -/
def percentile_spec (values : List ℚ) (p : ℚ) : ℚ :=
  if values.isEmpty then 0
  else
    let s := List.insertionSort (· ≤ ·) values
    let rank : ℚ := p / 100 * ((s.length : ℚ) - 1)
    idxD s (Int.floor rank)
      + (rank - ((Int.floor rank : ℤ) : ℚ))
        * (idxD s (Int.ceil rank) - idxD s (Int.floor rank))

/-- Embedding of Python `statistics.median` on rationals: middle element of a
sorted copy for odd length, average of the two middle elements for even
length.  (Python raises on an empty list; every call site guards nonempty,
and the embedding returns 0 there.) -/
def pyMedian (values : List ℚ) : ℚ :=
  let s := List.insertionSort (· ≤ ·) values
  let n := s.length
  if n % 2 = 1 then s.getD (n / 2) 0
  else (s.getD (n / 2 - 1) 0 + s.getD (n / 2) 0) / 2

/-- Python `max` on a nonempty list (0 on empty, unreachable at call sites). -/
def pyMax (l : List ℚ) : ℚ :=
  match l with
  | [] => 0
  | h :: t => t.foldl max h

/-- Python `min` on a nonempty list (0 on empty, unreachable at call sites). -/
def pyMin (l : List ℚ) : ℚ :=
  match l with
  | [] => 0
  | h :: t => t.foldl min h

/-- Seller identity of a marketplace order (`order["user"]`). -/
structure User where
  ingame_name : String
  status : String
  platform : String
  crossplay : Bool
deriving Repr, DecidableEq

/-- One marketplace order, with the fields the core reads. -/
structure Order where
  order_type : String
  platinum : ℚ
  visible : Bool
  user : User
deriving Repr, DecidableEq

/-- Embedding of `calculate_metric` (pricing.py lines 71-102): keep strictly
positive platinum prices, then dispatch on the metric name; `"pNN"` parses the
suffix as a number (the strategy table only ever produces whole-number
suffixes, so the suffix is parsed as a natural number). -/
def calculate_metric (orders : List Order) (metric : String) : ℚ :=
  if orders.isEmpty then 0
  else
    let prices := (orders.map fun o => o.platinum).filter fun p => decide (0 < p)
    if prices.isEmpty then 0
    else if metric = "median" then pyMedian prices
    else if metric = "max" then pyMax prices
    else if metric = "min" then pyMin prices
    else if metric.startsWith "p" then
      match (metric.drop 1).toNat? with
      | some k => calculate_percentile prices (k : ℚ)
      | none => 0
    else 0

/-- The four parameters of a named strategy (pricing.py lines 47-66). -/
structure StrategyParams where
  buy_metric : String
  buy_order_type : String
  sell_metric : String
  sell_order_type : String
deriving Repr, DecidableEq

/-- Embedding of `get_strategy_params` (pricing.py lines 37-68): the static
strategy table, unknown names falling back to `"balanced"`. -/
def get_strategy_params (strategy : String) : StrategyParams :=
  if strategy = "conservative" then ⟨"median", "sell", "max", "buy"⟩
  else if strategy = "balanced" then ⟨"p35", "sell", "median", "sell"⟩
  else if strategy = "aggressive" then ⟨"min", "sell", "min", "sell"⟩
  else ⟨"p35", "sell", "median", "sell"⟩

/-- Embedding of `calculate_part_price` (pricing.py lines 105-133). -/
def calculate_part_price (orders : List Order) (strategy : String)
    (is_buying : Bool) : ℚ × String :=
  let params := get_strategy_params strategy
  let order_type := if is_buying then params.buy_order_type else params.sell_order_type
  let metric := if is_buying then params.buy_metric else params.sell_metric
  (calculate_metric orders metric, order_type ++ "_" ++ metric)

/-- The dictionary `calculate_arbitrage` returns. -/
structure ArbResult where
  parts_cost : ℚ
  set_price : ℚ
  profit_plat : ℚ
  profit_margin : ℚ
  fee : ℚ
deriving Repr, DecidableEq

/-- Embedding of `calculate_arbitrage` (pricing.py lines 136-175).  The part
price dictionary is embedded as an association list of
(part name, (price, source)); only the prices are summed. -/
def calculate_arbitrage (part_prices : List (String × ℚ × String))
    (set_price : ℚ) (set_source : String) (platform_fee_pct : ℚ) : ArbResult :=
  let total_parts_cost := (part_prices.map fun kv => kv.2.1).sum
  if total_parts_cost = 0 then
    { parts_cost := 0, set_price := set_price, profit_plat := 0,
      profit_margin := 0, fee := 0 }
  else
    let fee := set_price * platform_fee_pct
    let profit_plat := set_price - total_parts_cost - fee
    let profit_margin := if 0 < total_parts_cost then profit_plat / total_parts_cost else 0
    { parts_cost := total_parts_cost, set_price := set_price,
      profit_plat := profit_plat, profit_margin := profit_margin, fee := fee }

/-- Python `round` at two or four decimals, embedded as exact half-to-even
rounding of the rational (`round_half_even q` is `round(q)` for a rational
already scaled to integer position). -/
def round_half_even (q : ℚ) : ℤ :=
  let f := Int.floor q
  let r := q - (f : ℚ)
  if r < 1 / 2 then f
  else if 1 / 2 < r then f + 1
  else if f % 2 = 0 then f else f + 1

/-- Python `round(q, d)`: half-to-even at `d` decimal digits. -/
def pyRound (q : ℚ) (d : ℕ) : ℚ :=
  ((round_half_even (q * 10 ^ d) : ℤ) : ℚ) / 10 ^ d

/-- The market-order key of one part: `f"{frame_id}_{part.lower().replace(' ', '_')}"`. -/
def part_item_name (frame_id part : String) : String :=
  frame_id ++ "_" ++ (part.toLower.replace " " "_")

/-- Seller attribution (pricing.py lines 229-238 and 248-254): the in-game
name of the seller of the cheapest sell order, ties broken by list order
(`sorted` is stable, so `sorted_orders[0]` is the first order attaining the
minimal platinum price); `"User"` when there is no sell order. -/
def cheapest_sell_seller (orders : List Order) : String :=
  let sell_orders := orders.filter fun o => decide (o.order_type = "sell")
  match sell_orders with
  | [] => "User"
  | h :: t => (t.foldl (fun acc o => if o.platinum < acc.platinum then o else acc) h).user.ingame_name

/-- One element of the `parts` list of an opportunity. -/
structure PartEntry where
  name : String
  price : ℚ
  source : String
  seller : String
deriving Repr, DecidableEq

/-- The opportunity dictionary `calculate_frame_opportunity` returns.  The
`last_updated` timestamp added by the scheduler is not part of the pricing
computation and is left out. -/
structure Opportunity where
  frame_id : String
  frame_name : String
  platform : String
  strategy : String
  item_type : String
  parts : List PartEntry
  full_set_price : ℚ
  profit_plat : ℚ
  profit_margin : ℚ
  seller : String
deriving Repr, DecidableEq

/-- Embedding of `calculate_frame_opportunity` (pricing.py lines 178-274).
`market_orders` embeds the Python dict read through `.get(key, [])` as a
total function; `platform_fee_pct` stands for the `settings.platform_fee_pct`
global the Python body reads.  The `part_prices` dict, built in part-list
order with at most one entry per part name, is embedded as an association
list (part names in a catalog entry are distinct). -/
def calculate_frame_opportunity (frame_id frame_name : String)
    (parts : List String) (market_orders : String → List Order)
    (strategy platform item_type : String) (platform_fee_pct : ℚ) :
    Option Opportunity :=
  let part_prices : List (String × ℚ × String) :=
    parts.filterMap fun part =>
      let orders := market_orders (part_item_name frame_id part)
      if orders.isEmpty then none
      else
        let ps := calculate_part_price orders strategy true
        if 0 < ps.1 then some (part, ps.1, ps.2) else none
  let set_item_name := frame_id ++ "_set"
  let set_orders := market_orders set_item_name
  if set_orders.isEmpty then none
  else
    let sp := calculate_part_price set_orders strategy false
    if sp.1 = 0 then none
    else
      let seller_username := cheapest_sell_seller set_orders
      let arb := calculate_arbitrage part_prices sp.1 sp.2 platform_fee_pct
      let parts_with_sellers : List PartEntry :=
        part_prices.map fun pe =>
          { name := pe.1, price := pe.2.1, source := pe.2.2,
            seller := cheapest_sell_seller (market_orders (part_item_name frame_id pe.1)) }
      some
        { frame_id := frame_id, frame_name := frame_name, platform := platform,
          strategy := strategy, item_type := item_type,
          parts := parts_with_sellers, full_set_price := sp.1,
          profit_plat := pyRound arb.profit_plat 2,
          profit_margin := pyRound arb.profit_margin 4,
          seller := seller_username }

end WTT

namespace WTT.MarketClient

/-- Client constants (market_client.py lines 30-32). -/
def max_retries : ℕ := 5

/-- Base backoff delay in seconds (market_client.py line 31). -/
def base_backoff : ℚ := 1

/-- Backoff cap in seconds (market_client.py line 32). -/
def max_backoff : ℚ := 60

/-- Embedding of `_calculate_backoff` (market_client.py lines 38-42).  The
draw `random.uniform(0, backoff * 0.1)` is embedded as the oracle argument
`jitter`; the claims constrain it to the interval the Python draw ranges
over. -/
def calculate_backoff (attempt : ℕ) (jitter : ℚ) : ℚ :=
  min (base_backoff * 2 ^ attempt) max_backoff + jitter

/-- The order payload of a successful response
(`data["payload"]["orders"]`). -/
structure OrdersPayload where
  orders : List Order
deriving Repr, DecidableEq

/-- What one attempt of `_request_with_retry` observes: a successful JSON
response, an HTTP 429 with its integer `Retry-After` header, an HTTP 5xx, or
an `httpx.HTTPError` raised by the request. -/
inductive AttemptOutcome where
  | success (data : OrdersPayload)
  | rateLimited (retry_after : ℤ)
  | serverError
  | httpError
deriving Repr, DecidableEq

/-- Loop body of `_request_with_retry` (market_client.py lines 50-79),
by recursion on the remaining attempts; `attempt` is the index of the next
attempt to run.  Returns the successful payload (`none` = all retries
exhausted, the Python `raise` on line 83) paired with the list of backoff
sleeps performed, in order — a failed attempt at index `i` contributes the
sleep at position `i` of that list. -/
def request_aux (env : ℕ → AttemptOutcome) (jitter : ℕ → ℚ) :
    ℕ → ℕ → Option OrdersPayload × List ℚ
  | _, 0 => (none, [])
  | attempt, remaining + 1 =>
    match env attempt with
    | .success d => (some d, [])
    | .rateLimited retry_after =>
      let backoff := max (retry_after : ℚ) (calculate_backoff attempt (jitter attempt))
      let rest := request_aux env jitter (attempt + 1) remaining
      (rest.1, backoff :: rest.2)
    | .serverError =>
      let backoff := calculate_backoff attempt (jitter attempt)
      let rest := request_aux env jitter (attempt + 1) remaining
      (rest.1, backoff :: rest.2)
    | .httpError =>
      let backoff := calculate_backoff attempt (jitter attempt)
      let rest := request_aux env jitter (attempt + 1) remaining
      (rest.1, backoff :: rest.2)

/-- Embedding of `_request_with_retry` (market_client.py lines 44-83):
`for attempt in range(self.max_retries)` starting at attempt 0. -/
def request_with_retry (env : ℕ → AttemptOutcome) (jitter : ℕ → ℚ) :
    Option OrdersPayload × List ℚ :=
  request_aux env jitter 0 max_retries

/-- Embedding of `get_item_orders` (market_client.py lines 85-101): the
result of the retried request, with any exception absorbed into the fallback
payload with an empty order list.  The codomain is a plain payload — in the
embedding, never raising is the totality of this function. -/
def get_item_orders (env : ℕ → AttemptOutcome) (jitter : ℕ → ℚ) :
    OrdersPayload :=
  match (request_with_retry env jitter).1 with
  | some data => data
  | none => { orders := [] }

/-- The console platform list (market_client.py line 125). -/
def console_platforms : List String := ["ps4", "xbox", "switch", "playstation"]

/-- Embedding of `filter_orders` (market_client.py lines 112-141).
`platform` stands for `self.platform`, the configured platform. -/
def filter_orders (platform : String) (orders : List Order)
    (order_type : String) : List Order :=
  orders.filter fun o =>
    decide (o.order_type = order_type) && o.visible
      && decide (o.user.status = "ingame")
      && ((decide (platform = "pc") && decide (o.user.platform = "pc"))
          || (console_platforms.contains platform && o.user.crossplay))

end WTT.MarketClient

namespace WTT.Scheduler

/-- Start time of cycle `n` of `_run_loop` (scheduler.py lines 165-178) for a
scheduler that keeps running: the loop body awaits `fetch_and_process` (cycle
`n` taking `dur n` seconds) and then unconditionally awaits
`asyncio.sleep(interval)`, so cycle 0 starts immediately and cycle `n + 1`
starts one full interval after cycle `n` finishes. -/
def cycle_start (interval : ℚ) (dur : ℕ → ℚ) : ℕ → ℚ
  | 0 => 0
  | n + 1 => cycle_start interval dur n + dur n + interval

/-- Finish time of cycle `n`. -/
def cycle_finish (interval : ℚ) (dur : ℕ → ℚ) (n : ℕ) : ℚ :=
  cycle_start interval dur n + dur n

/-- The timing the claim asserts of the loop: the first cycle immediately,
each next cycle one interval after the previous START when the previous cycle
fit inside the interval, and immediately at the previous cycle's finish when
it overran. -/
def claimed_schedule (interval : ℚ) (dur : ℕ → ℚ) (start : ℕ → ℚ) : Prop :=
  start 0 = 0 ∧
    ∀ n, start (n + 1) =
      if dur n ≤ interval then start n + interval else start n + dur n

/-- One unit of awaited work inside a cycle of `fetch_and_process`. -/
inductive Action where
  | fetch
  | persist
  | broadcast
deriving Repr, DecidableEq

/-- The work of one full cycle, in order (scheduler.py lines 28-124). -/
def cycle_actions : List Action := [Action.fetch, Action.persist, Action.broadcast]

/-- Scheduler task state: `running` is the `self.running` flag, `pending` the
awaited work remaining in the in-flight cycle (`[]` while the task idles in
`asyncio.sleep` between cycles), `executed` the work performed so far, and
`task_alive` whether the background task exists and has not terminated. -/
structure SchedulerState where
  running : Bool
  pending : List Action
  executed : List Action
  task_alive : Bool
deriving Repr, DecidableEq

/-- One step of the background task: a live task performs the next pending
awaited action; a live idle task whose `running` flag is set begins the next
cycle once the interval elapses; a terminated task does nothing. -/
def run_step (s : SchedulerState) : SchedulerState :=
  if s.task_alive then
    match s.pending with
    | a :: rest => { s with pending := rest, executed := s.executed ++ [a] }
    | [] => if s.running then { s with pending := cycle_actions } else s
  else s

/-- Embedding of `stop` (scheduler.py lines 187-196): `self.running = False`;
`self._task.cancel()` raises `CancelledError` at the task's next suspension
point, so the idle wait and any still-pending awaited work of the in-flight
cycle are abandoned (`CancelledError` passes through the `except Exception`
handlers); `await self._task` then returns only once the task has
terminated. -/
def stop (s : SchedulerState) : SchedulerState :=
  { running := false, pending := [], executed := s.executed, task_alive := false }

/-- The behaviour the claim asserts of `stop`: the in-flight cycle's
remaining work is completed before `stop` returns. -/
def stop_completes_cycle (s : SchedulerState) : Prop :=
  (stop s).executed = s.executed ++ s.pending

/-- Embedding of `get_current_opportunities` (scheduler.py lines 198-206):
a list comprehension over the stored `self.current_opportunities`. -/
def get_current_opportunities (current_opportunities : List Opportunity)
    (min_profit min_margin : ℚ) : List Opportunity :=
  current_opportunities.filter fun opp =>
    decide (min_profit ≤ opp.profit_plat) && decide (min_margin ≤ opp.profit_margin)

end WTT.Scheduler

namespace WTT.WsManager

/-- Connection manager state (ws_manager.py lines 16-19): the list of active
connections and the per-connection config keys.  Connections are identified
by numbers; config values are irrelevant to the claims and the dict is
embedded by its key list. -/
structure ManagerState where
  active_connections : List ℕ
  config_keys : List ℕ
deriving Repr, DecidableEq

/-- Embedding of `disconnect` (ws_manager.py lines 33-39): remove the first
occurrence from the connection list if present, drop the config entry. -/
def disconnect (s : ManagerState) (ws : ℕ) : ManagerState :=
  { active_connections := s.active_connections.erase ws,
    config_keys := s.config_keys.filter fun k => decide (k ≠ ws) }

/-- Embedding of `broadcast` (ws_manager.py lines 67-80).  `send_ok c` is the
oracle telling whether `send_json` succeeds on connection `c` for this
message.  The loop attempts the send on every active connection in order,
collecting the failures, then disconnects exactly the failed ones; the
returned list is the connections that received the message. -/
def broadcast (send_ok : ℕ → Bool) (s : ManagerState) :
    ManagerState × List ℕ :=
  let delivered := s.active_connections.filter fun c => send_ok c
  let disconnected := s.active_connections.filter fun c => !send_ok c
  (disconnected.foldl (fun st c => disconnect st c) s, delivered)

end WTT.WsManager

open WTT

/-- C1: the claim quantifies over every part-price mapping, but on a mapping
whose prices sum to a negative number `calculate_arbitrage` returns margin 0,
not `profit / parts_cost`: at `part_prices = {"a": (-5, "s")}`,
`set_price = 10`, fee 0, the code returns margin 0 while the claimed formula
gives 15 / (-5) = -3. -/
theorem C1_counterexample :
    (calculate_arbitrage [("a", -5, "s")] 10 "m" 0).parts_cost = -5
    ∧ (calculate_arbitrage [("a", -5, "s")] 10 "m" 0).profit_plat = 15
    ∧ (calculate_arbitrage [("a", -5, "s")] 10 "m" 0).profit_margin = 0
    ∧ (calculate_arbitrage [("a", -5, "s")] 10 "m" 0).profit_plat
        / (calculate_arbitrage [("a", -5, "s")] 10 "m" 0).parts_cost = -3
    ∧ ((0 : ℚ) = -3 → False) := by
  refine ⟨?_, ?_, ?_, ?_, by norm_num⟩ <;> norm_num [calculate_arbitrage]

/-- C1 (amended): `calculate_arbitrage` returns `parts_cost` equal to the sum
of the part prices; when that sum is 0 it returns exactly the zero result
(profit 0, margin 0, fee 0) with no division; otherwise it returns
`fee = set_price * platform_fee_pct`,
`profit = set_price - parts_cost - fee`, and `margin = profit / parts_cost`
whenever the sum is positive, the margin falling back to 0 for a negative
sum. -/
theorem C1_arbitrage (part_prices : List (String × ℚ × String))
    (set_price platform_fee_pct : ℚ) (set_source : String) :
    (calculate_arbitrage part_prices set_price set_source platform_fee_pct).parts_cost
        = (part_prices.map fun kv => kv.2.1).sum
    ∧ ((part_prices.map fun kv => kv.2.1).sum = 0 →
        calculate_arbitrage part_prices set_price set_source platform_fee_pct
          = { parts_cost := 0, set_price := set_price, profit_plat := 0,
              profit_margin := 0, fee := 0 })
    ∧ ((part_prices.map fun kv => kv.2.1).sum ≠ 0 →
        (calculate_arbitrage part_prices set_price set_source platform_fee_pct).fee
            = set_price * platform_fee_pct
        ∧ (calculate_arbitrage part_prices set_price set_source platform_fee_pct).profit_plat
            = set_price - (part_prices.map fun kv => kv.2.1).sum
                - set_price * platform_fee_pct
        ∧ (0 < (part_prices.map fun kv => kv.2.1).sum →
            (calculate_arbitrage part_prices set_price set_source platform_fee_pct).profit_margin
              = (calculate_arbitrage part_prices set_price set_source platform_fee_pct).profit_plat
                / (calculate_arbitrage part_prices set_price set_source platform_fee_pct).parts_cost)
        ∧ ((part_prices.map fun kv => kv.2.1).sum < 0 →
            (calculate_arbitrage part_prices set_price set_source platform_fee_pct).profit_margin
              = 0)) := by
  by_cases h : (part_prices.map fun kv => kv.2.1).sum = 0
  · refine ⟨?_, fun _ => ?_, fun hne => absurd h hne⟩ <;>
      simp [calculate_arbitrage, h]
  · refine ⟨by simp [calculate_arbitrage, h],
      fun h0 => absurd h0 h,
      fun _ => ⟨by simp [calculate_arbitrage, h], by simp [calculate_arbitrage, h],
        fun hpos => ?_, fun hneg => ?_⟩⟩
    · simp [calculate_arbitrage, h, hpos]
    · have hnp : ¬ 0 < (part_prices.map fun kv => kv.2.1).sum := not_lt.mpr hneg.le
      simp [calculate_arbitrage, h, hnp]

/-- C3: the loop sleeps the full interval after every cycle, so with interval
10 and a cycle duration of 3 the second cycle starts at 13, not at 10 as the
claimed every-interval schedule demands. -/
theorem C3_counterexample :
    ¬ Scheduler.claimed_schedule 10 (fun _ => 3)
        (Scheduler.cycle_start 10 (fun _ => 3)) := by
  intro h
  have h1 := h.2 0
  norm_num [Scheduler.cycle_start] at h1

/-- C3 (amended): once started the scheduler runs cycles as a single
serialized loop in which cycles never overlap, the first cycle begins
immediately on start, and each subsequent cycle begins exactly
`refreshIntervalSeconds` after the prior cycle finishes — a fixed delay after
completion rather than a fixed-rate schedule, so even a cycle that overruns
the interval is followed by a full-interval wait before the next cycle. -/
theorem C3_schedule (interval : ℚ) (dur : ℕ → ℚ) (hI : 0 ≤ interval)
    (hd : ∀ n, 0 ≤ dur n) (n : ℕ) :
    Scheduler.cycle_start interval dur 0 = 0
    ∧ Scheduler.cycle_start interval dur n ≤ Scheduler.cycle_finish interval dur n
    ∧ Scheduler.cycle_finish interval dur n ≤ Scheduler.cycle_start interval dur (n + 1)
    ∧ Scheduler.cycle_start interval dur (n + 1)
        = Scheduler.cycle_finish interval dur n + interval := by
  refine ⟨rfl, ?_, ?_, ?_⟩
  · have := hd n
    simp only [Scheduler.cycle_finish]
    linarith
  · simp only [Scheduler.cycle_finish, Scheduler.cycle_start]
    linarith
  · simp only [Scheduler.cycle_finish, Scheduler.cycle_start]

/-- C3 witness: at interval 10 and constant duration 3, cycle 1 begins one
interval after cycle 0 finishes. -/
theorem C3_witness :
    Scheduler.cycle_start 10 (fun _ => 3) 1
      = Scheduler.cycle_finish 10 (fun _ => 3) 0 + 10 :=
  (C3_schedule 10 (fun _ => 3) (by norm_num) (fun _ => by norm_num) 0).2.2.2

/-- C8: `stop` cancels the background task, which aborts the in-flight cycle
at its next suspension point instead of awaiting its completion: a task
cancelled mid-cycle with persist and broadcast work still pending terminates
with only the fetch performed. -/
theorem C8_counterexample :
    ¬ Scheduler.stop_completes_cycle
        { running := true,
          pending := [Scheduler.Action.persist, Scheduler.Action.broadcast],
          executed := [Scheduler.Action.fetch], task_alive := true } := by
  simp [Scheduler.stop_completes_cycle, Scheduler.stop]

/-- C8 (amended): `stop()` transitions the scheduler from Running to Idle,
promptly cancels the idle wait between cycles (it does not wait out a full
interval), aborts any in-flight cycle at its next suspension point rather
than running it to completion, and awaits the task's termination before
returning, so that no fetch, persist, or broadcast work executes after
`stop()` has returned. -/
theorem C8_stop (s : Scheduler.SchedulerState) (k : ℕ) :
    (Scheduler.stop s).running = false
    ∧ (Scheduler.stop s).task_alive = false
    ∧ (Scheduler.stop s).pending = []
    ∧ (Scheduler.stop s).executed = s.executed
    ∧ Scheduler.run_step^[k] (Scheduler.stop s) = Scheduler.stop s := by
  refine ⟨rfl, rfl, rfl, rfl, ?_⟩
  induction k with
  | zero => rfl
  | succ m ih =>
    rw [Function.iterate_succ_apply, show Scheduler.run_step (Scheduler.stop s)
        = Scheduler.stop s from rfl, ih]

/-- C10: `get_current_opportunities` returns exactly the stored opportunities
meeting both thresholds, as a sublist of the stored list (stored order, no
mutation — the embedding is a pure function of the stored state); with the
default thresholds 0 every opportunity with negative profit or negative
margin is omitted. -/
theorem C10_query (current : List Opportunity) (min_profit min_margin : ℚ) :
    List.Sublist (Scheduler.get_current_opportunities current min_profit min_margin) current
    ∧ (∀ o, o ∈ Scheduler.get_current_opportunities current min_profit min_margin ↔
        o ∈ current ∧ min_profit ≤ o.profit_plat ∧ min_margin ≤ o.profit_margin)
    ∧ (∀ o ∈ current, (o.profit_plat < 0 ∨ o.profit_margin < 0) →
        o ∉ Scheduler.get_current_opportunities current 0 0) := by
  refine ⟨List.filter_sublist _, fun o => ?_, fun o _ hneg hmem => ?_⟩
  · simp [Scheduler.get_current_opportunities, List.mem_filter, and_assoc]
  · simp [Scheduler.get_current_opportunities, List.mem_filter] at hmem
    rcases hneg with h | h
    · exact absurd hmem.2.1 (not_le.mpr h)
    · exact absurd hmem.2.2 (not_le.mpr h)

/-- C4: `calculate_frame_opportunity` returns `none` exactly when the set
item has no orders in the supplied order map or the set's strategy-selected
price (the price component of `calculate_part_price` on the set's orders with
`is_buying = False`) resolves to 0; and since that condition never mentions
the part list, parts with no orders are merely skipped and never by
themselves prevent an opportunity from being returned. -/
theorem C4_opportunity (frame_id frame_name : String) (parts : List String)
    (market_orders : String → List Order)
    (strategy platform item_type : String) (platform_fee_pct : ℚ) :
    (calculate_frame_opportunity frame_id frame_name parts market_orders
        strategy platform item_type platform_fee_pct = none
      ↔ (market_orders (frame_id ++ "_set") = []
          ∨ (calculate_part_price (market_orders (frame_id ++ "_set"))
              strategy false).1 = 0))
    ∧ (∀ parts2 frame_name2 : _,
        (calculate_frame_opportunity frame_id frame_name parts market_orders
            strategy platform item_type platform_fee_pct = none
          ↔ calculate_frame_opportunity frame_id frame_name2 parts2 market_orders
              strategy platform item_type platform_fee_pct = none)) := by
  have key : ∀ (parts1 : List String) (fn : String),
      (calculate_frame_opportunity frame_id fn parts1 market_orders
          strategy platform item_type platform_fee_pct = none
        ↔ (market_orders (frame_id ++ "_set") = []
            ∨ (calculate_part_price (market_orders (frame_id ++ "_set"))
                strategy false).1 = 0)) := by
    intro parts1 fn
    by_cases hset : (market_orders (frame_id ++ "_set")).isEmpty
    · simp [calculate_frame_opportunity, hset, List.isEmpty_iff.mp hset]
    · by_cases hz : (calculate_part_price (market_orders (frame_id ++ "_set"))
          strategy false).1 = 0
      · simp [calculate_frame_opportunity, hset, hz]
      · simp [calculate_frame_opportunity, hset, hz]
        intro h
        exact absurd (by simp [h]) hset
  exact ⟨key parts frame_name, fun parts2 fn2 =>
    (key parts frame_name).trans (key parts2 fn2).symm⟩

/-- The retry loop makes at most as many attempts as it has remaining, so it
performs at most that many backoff sleeps. -/
theorem request_aux_length_le (env : ℕ → MarketClient.AttemptOutcome)
    (jitter : ℕ → ℚ) :
    ∀ (remaining attempt : ℕ),
      (MarketClient.request_aux env jitter attempt remaining).2.length ≤ remaining := by
  intro remaining
  induction remaining with
  | zero => intro attempt; simp [MarketClient.request_aux]
  | succ m ih =>
    intro attempt
    cases henv : env attempt <;>
      simp [MarketClient.request_aux, henv] <;>
      exact ih (attempt + 1)

/-- When every remaining attempt is consumed without success, every attempt
slept once: the request is abandoned after exactly `remaining` attempts. -/
theorem request_aux_length_of_none (env : ℕ → MarketClient.AttemptOutcome)
    (jitter : ℕ → ℚ) :
    ∀ (remaining attempt : ℕ),
      (MarketClient.request_aux env jitter attempt remaining).1 = none →
      (MarketClient.request_aux env jitter attempt remaining).2.length = remaining := by
  intro remaining
  induction remaining with
  | zero => intro attempt _; simp [MarketClient.request_aux]
  | succ m ih =>
    intro attempt hnone
    cases henv : env attempt <;>
      simp [MarketClient.request_aux, henv] at hnone ⊢ <;>
      exact ih (attempt + 1) hnone

/-- The sleep recorded for a rate-limited attempt is the larger of the
server-supplied value and the computed backoff. -/
theorem request_aux_sleep_429 (env : ℕ → MarketClient.AttemptOutcome)
    (jitter : ℕ → ℚ) :
    ∀ (remaining attempt i : ℕ) (retry_after : ℤ),
      env (attempt + i) = .rateLimited retry_after →
      i < (MarketClient.request_aux env jitter attempt remaining).2.length →
      (MarketClient.request_aux env jitter attempt remaining).2.getD i 0
        = max (retry_after : ℚ)
            (MarketClient.calculate_backoff (attempt + i) (jitter (attempt + i))) := by
  intro remaining
  induction remaining with
  | zero => intro attempt i ra _ hi; simp [MarketClient.request_aux] at hi
  | succ m ih =>
    intro attempt i ra henv hi
    cases houtcome : env attempt with
    | success d => simp [MarketClient.request_aux, houtcome] at hi
    | rateLimited ra2 =>
      cases i with
      | zero =>
        have hra : ra2 = ra := by
          rw [Nat.add_zero, houtcome] at henv
          cases henv
          rfl
        subst hra
        simp [MarketClient.request_aux, houtcome, Nat.add_zero]
      | succ i2 =>
        have hrec := ih (attempt + 1) i2 ra
          (by rw [show attempt + 1 + i2 = attempt + (i2 + 1) by omega]; exact henv)
        simp only [MarketClient.request_aux, houtcome] at hi ⊢
        rw [show attempt + 1 + i2 = attempt + (i2 + 1) by omega] at hrec
        simp only [List.getD_cons_succ, List.length_cons] at hi ⊢
        exact hrec (by omega)
    | serverError =>
      cases i with
      | zero =>
        rw [Nat.add_zero, houtcome] at henv
        cases henv
      | succ i2 =>
        have hrec := ih (attempt + 1) i2 ra
          (by rw [show attempt + 1 + i2 = attempt + (i2 + 1) by omega]; exact henv)
        simp only [MarketClient.request_aux, houtcome] at hi ⊢
        rw [show attempt + 1 + i2 = attempt + (i2 + 1) by omega] at hrec
        simp only [List.getD_cons_succ, List.length_cons] at hi ⊢
        exact hrec (by omega)
    | httpError =>
      cases i with
      | zero =>
        rw [Nat.add_zero, houtcome] at henv
        cases henv
      | succ i2 =>
        have hrec := ih (attempt + 1) i2 ra
          (by rw [show attempt + 1 + i2 = attempt + (i2 + 1) by omega]; exact henv)
        simp only [MarketClient.request_aux, houtcome] at hi ⊢
        rw [show attempt + 1 + i2 = attempt + (i2 + 1) by omega] at hrec
        simp only [List.getD_cons_succ, List.length_cons] at hi ⊢
        exact hrec (by omega)

/-- When no remaining attempt succeeds the retried request yields nothing. -/
theorem request_aux_none_of_fail (env : ℕ → MarketClient.AttemptOutcome)
    (jitter : ℕ → ℚ) :
    ∀ (remaining attempt : ℕ),
      (∀ i, i < remaining → ∀ d, env (attempt + i) ≠ .success d) →
      (MarketClient.request_aux env jitter attempt remaining).1 = none := by
  intro remaining
  induction remaining with
  | zero => intro attempt _; simp [MarketClient.request_aux]
  | succ m ih =>
    intro attempt hfail
    cases henv : env attempt with
    | success d =>
      exact absurd (by rw [← Nat.add_zero attempt] at henv; exact henv)
        (hfail 0 (Nat.succ_pos m) d)
    | rateLimited ra =>
      simp [MarketClient.request_aux, henv]
      exact ih (attempt + 1) fun i hi d => by
        rw [show attempt + 1 + i = attempt + (i + 1) by omega]
        exact hfail (i + 1) (by omega) d
    | serverError =>
      simp [MarketClient.request_aux, henv]
      exact ih (attempt + 1) fun i hi d => by
        rw [show attempt + 1 + i = attempt + (i + 1) by omega]
        exact hfail (i + 1) (by omega) d
    | httpError =>
      simp [MarketClient.request_aux, henv]
      exact ih (attempt + 1) fun i hi d => by
        rw [show attempt + 1 + i = attempt + (i + 1) by omega]
        exact hfail (i + 1) (by omega) d

/-- C5: `get_item_orders` is a total function into a plain payload — in the
embedding nothing can escape to the caller; when the retried request fails
(in particular when none of the five attempts succeeds) it returns the
fallback payload with an empty order list, and when the request succeeds it
returns the data unchanged. -/
theorem C5_get_item_orders (env : ℕ → MarketClient.AttemptOutcome)
    (jitter : ℕ → ℚ) :
    ((MarketClient.request_with_retry env jitter).1 = none →
      MarketClient.get_item_orders env jitter = { orders := [] })
    ∧ (∀ data, (MarketClient.request_with_retry env jitter).1 = some data →
        MarketClient.get_item_orders env jitter = data)
    ∧ ((∀ i, i < MarketClient.max_retries →
          ∀ data, env i ≠ .success data) →
        (MarketClient.get_item_orders env jitter).orders = []) := by
  refine ⟨fun h => ?_, fun data h => ?_, fun h => ?_⟩
  · simp [MarketClient.get_item_orders, h]
  · simp [MarketClient.get_item_orders, h]
  · have hnone := request_aux_none_of_fail env jitter MarketClient.max_retries 0
      (fun i hi d => by rw [Nat.zero_add]; exact h i hi d)
    simp [MarketClient.get_item_orders, MarketClient.request_with_retry, hnone]

/-- C7: the computed retry delay is `min(base_backoff * 2^attempt,
max_backoff)` plus the jitter, which the uniform draw bounds by 10% of the
computed value; on an HTTP 429 the sleep actually used is the larger of the
server-supplied Retry-After value and the computed backoff; and at most 5
attempts are made — all 5 exactly when the request is abandoned. -/
theorem C7_backoff (env : ℕ → MarketClient.AttemptOutcome) (jitter : ℕ → ℚ)
    (attempt : ℕ) (j : ℚ) (hj0 : 0 ≤ j)
    (hj1 : j ≤ min (MarketClient.base_backoff * 2 ^ attempt)
        MarketClient.max_backoff / 10) :
    MarketClient.calculate_backoff attempt j
        = min (MarketClient.base_backoff * 2 ^ attempt) MarketClient.max_backoff + j
    ∧ min (MarketClient.base_backoff * 2 ^ attempt) MarketClient.max_backoff
        ≤ MarketClient.calculate_backoff attempt j
    ∧ MarketClient.calculate_backoff attempt j
        ≤ min (MarketClient.base_backoff * 2 ^ attempt) MarketClient.max_backoff
            * (11 / 10)
    ∧ (∀ i retry_after, env i = .rateLimited retry_after →
        i < (MarketClient.request_with_retry env jitter).2.length →
        (MarketClient.request_with_retry env jitter).2.getD i 0
          = max (retry_after : ℚ) (MarketClient.calculate_backoff i (jitter i)))
    ∧ (MarketClient.request_with_retry env jitter).2.length
        ≤ MarketClient.max_retries
    ∧ ((MarketClient.request_with_retry env jitter).1 = none →
        (MarketClient.request_with_retry env jitter).2.length
          = MarketClient.max_retries) := by
  refine ⟨rfl, ?_, ?_, fun i ra henv hi => ?_, ?_, fun h => ?_⟩
  · simp only [MarketClient.calculate_backoff]
    linarith
  · simp only [MarketClient.calculate_backoff]
    linarith
  · have := request_aux_sleep_429 env jitter MarketClient.max_retries 0 i ra
      (by rw [Nat.zero_add]; exact henv) hi
    simpa [MarketClient.request_with_retry] using this
  · exact request_aux_length_le env jitter MarketClient.max_retries 0
  · exact request_aux_length_of_none env jitter MarketClient.max_retries 0 h

/-- C7 witness: at attempt 2 with jitter 0 the delay is exactly the capped
exponential backoff. -/
theorem C7_backoff_witness :
    MarketClient.calculate_backoff 2 0
      = min (MarketClient.base_backoff * 2 ^ 2) MarketClient.max_backoff + 0 :=
  (C7_backoff (fun _ => .httpError) (fun _ => 0) 2 0 le_rfl
    (by norm_num [MarketClient.base_backoff, MarketClient.max_backoff])).1

/-- Folding `disconnect` over a list of connections acts on the active list
as folding `List.erase`. -/
theorem foldl_disconnect_active (ds : List ℕ) (st : WsManager.ManagerState) :
    (ds.foldl (fun s c => WsManager.disconnect s c) st).active_connections
      = ds.foldl (fun l c => l.erase c) st.active_connections := by
  induction ds generalizing st with
  | nil => rfl
  | cons d t ih =>
    rw [List.foldl_cons, List.foldl_cons, ih]
    rfl

/-- C9: `broadcast` attempts the send on every active connection, so the
message is delivered to exactly the connections whose send succeeds — one
connection's failure never blocks the others — and afterwards exactly the
failed connections have been removed, in stored order. -/
theorem C9_broadcast (send_ok : ℕ → Bool) (st : WsManager.ManagerState)
    (h : st.active_connections.Nodup) :
    (WsManager.broadcast send_ok st).2
        = st.active_connections.filter (fun c => send_ok c)
    ∧ (WsManager.broadcast send_ok st).1.active_connections
        = st.active_connections.filter (fun c => send_ok c)
    ∧ (∀ c ∈ st.active_connections, send_ok c = true →
        c ∈ (WsManager.broadcast send_ok st).2)
    ∧ (∀ c ∈ st.active_connections, send_ok c = false →
        c ∉ (WsManager.broadcast send_ok st).1.active_connections)
    ∧ (∀ c ∈ st.active_connections, send_ok c = true →
        c ∈ (WsManager.broadcast send_ok st).1.active_connections) := by
  have hactive : (WsManager.broadcast send_ok st).1.active_connections
      = st.active_connections.filter (fun c => send_ok c) := by
    rw [WsManager.broadcast, foldl_disconnect_active, ← List.diff_eq_foldl,
      List.Nodup.diff_eq_filter h]
    refine List.filter_congr fun c hc => ?_
    cases hsc : send_ok c <;> simp [List.mem_filter, hc, hsc]
  refine ⟨rfl, hactive, fun c hc hsc => ?_, fun c hc hsc => ?_, fun c hc hsc => ?_⟩
  · simp [WsManager.broadcast, List.mem_filter, hc, hsc]
  · rw [hactive]
    simp [List.mem_filter, hsc]
  · rw [hactive]
    simp [List.mem_filter, hc, hsc]

/-- C9 witness: with three distinct connections of which the send fails only
on the second, the second is removed by the broadcast. -/
theorem C9_broadcast_witness :
    2 ∉ (WsManager.broadcast (fun c => decide (c ≠ 2))
        { active_connections := [1, 2, 3],
          config_keys := [1, 2, 3] }).1.active_connections :=
  (C9_broadcast (fun c => decide (c ≠ 2))
      { active_connections := [1, 2, 3], config_keys := [1, 2, 3] }
      (by decide)).2.2.2.1 2 (by decide) (by decide)

/-- C6: `filter_orders` keeps exactly the orders of the requested direction
that are visible and whose seller is in-game, and — when the configured
platform is pc — whose seller platform is exactly pc, while for a configured
console platform the seller must have cross-play enabled. -/
theorem C6_filter (platform order_type : String) (orders : List Order) (o : Order) :
    (platform = "pc" →
      (o ∈ MarketClient.filter_orders platform orders order_type ↔
        o ∈ orders ∧ o.order_type = order_type ∧ o.visible = true
          ∧ o.user.status = "ingame" ∧ o.user.platform = "pc"))
    ∧ (platform ∈ MarketClient.console_platforms →
      (o ∈ MarketClient.filter_orders platform orders order_type ↔
        o ∈ orders ∧ o.order_type = order_type ∧ o.visible = true
          ∧ o.user.status = "ingame" ∧ o.user.crossplay = true)) := by
  constructor
  · intro hp
    subst hp
    have hpc : "pc" ∉ MarketClient.console_platforms := by decide
    simp [MarketClient.filter_orders, List.mem_filter, hpc, and_assoc]
  · intro hp
    have hne : platform ≠ "pc" := by
      intro h
      rw [h] at hp
      exact absurd hp (by decide)
    simp [MarketClient.filter_orders, List.mem_filter, hne, hp, and_assoc]

theorem percentile_code_eq_spec (v : List ℚ) (p : ℚ) (h0 : 0 ≤ p) (h1 : p ≤ 100) :
    calculate_percentile v p = percentile_spec v p := by
  by_cases hv : v.isEmpty
  · simp [calculate_percentile, percentile_spec, hv]
  · simp only [calculate_percentile, percentile_spec, hv, Bool.false_eq_true, if_false,
      Int.cast_natCast]
    set s := List.insertionSort (· ≤ ·) v with hsdef
    set r : ℚ := p / 100 * ((s.length : ℚ) - 1) with hrdef
    have hn : 1 ≤ s.length := by
      have hvne : v ≠ [] := by
        intro h
        rw [h] at hv
        exact hv rfl
      have : 0 < v.length := List.length_pos.mpr hvne
      rw [hsdef, List.length_insertionSort]
      omega
    have hlen1 : (1 : ℚ) ≤ (s.length : ℚ) := by exact_mod_cast hn
    have hr0 : 0 ≤ r := by
      rw [hrdef]
      have := div_nonneg h0 (by norm_num : (0:ℚ) ≤ 100)
      nlinarith
    have hr1 : r ≤ (s.length : ℚ) - 1 := by
      rw [hrdef]
      have hp1 : p / 100 ≤ 1 := (div_le_one (by norm_num)).mpr h1
      nlinarith [div_nonneg h0 (by norm_num : (0:ℚ) ≤ 100)]
    have hpy : pyInt r = Int.floor r := by
      rw [pyInt, if_neg (not_lt.mpr hr0)]
    rw [hpy]
    by_cases hint : r = ((Int.floor r : ℤ) : ℚ)
    · have hfr : r - ((Int.floor r : ℤ) : ℚ) = 0 := by rw [← hint]; ring
      rw [hfr]
      ring
    · have hlt : ((Int.floor r : ℤ) : ℚ) < r :=
        lt_of_le_of_ne (Int.floor_le r) (fun h => hint h.symm)
      have hceil_le : Int.ceil r ≤ Int.floor r + 1 :=
        Int.ceil_le.mpr (by push_cast; linarith [Int.lt_floor_add_one r])
      have hle_ceil : Int.floor r + 1 ≤ Int.ceil r := by
        by_contra hcon
        push_neg at hcon
        have h2 : r ≤ ((Int.floor r : ℤ) : ℚ) :=
          le_trans (Int.le_ceil r) (by exact_mod_cast Int.lt_add_one_iff.mp hcon)
        exact hint (le_antisymm h2 (Int.floor_le r))
      have hceil : Int.ceil r = Int.floor r + 1 := le_antisymm hceil_le hle_ceil
      have hflt : Int.floor r < (s.length : ℤ) - 1 := by
        have h3 : ((Int.floor r : ℤ) : ℚ) < (s.length : ℚ) - 1 := lt_of_lt_of_le hlt hr1
        have h4 : (((s.length : ℤ) - 1 : ℤ) : ℚ) = (s.length : ℚ) - 1 := by push_cast; ring
        rw [← h4] at h3
        exact_mod_cast h3
      have hmin : min (Int.floor r + 1) ((s.length : ℤ) - 1) = Int.floor r + 1 :=
        min_eq_left (by omega)
      rw [hmin, hceil]

theorem getD_zero_mem (l : List ℚ) (h : l ≠ []) : l.getD 0 0 ∈ l := by
  cases l with
  | nil => exact absurd rfl h
  | cons a t => simp

theorem getD_last_mem (l : List ℚ) (h : l ≠ []) : l.getD (l.length - 1) 0 ∈ l := by
  induction l with
  | nil => exact absurd rfl h
  | cons a t ih =>
    cases t with
    | nil => simp
    | cons b u =>
      have hlen : (a :: b :: u).length - 1 = u.length + 1 := by simp
      rw [hlen, List.getD_cons_succ]
      have := ih (by simp)
      have hlen2 : (b :: u).length - 1 = u.length := by simp
      rw [hlen2] at this
      exact List.mem_cons_of_mem a this

theorem sorted_getD_zero_le (l : List ℚ) (hs : List.Sorted (· ≤ ·) l) :
    ∀ x ∈ l, l.getD 0 0 ≤ x := by
  cases l with
  | nil => intro x hx; cases hx
  | cons a t =>
    intro x hx
    rcases List.mem_cons.mp hx with h | h
    · subst h; simp
    · simpa using (List.sorted_cons.mp hs).1 x h

theorem sorted_le_getD_last (l : List ℚ) (hs : List.Sorted (· ≤ ·) l) :
    ∀ x ∈ l, x ≤ l.getD (l.length - 1) 0 := by
  induction l with
  | nil => intro x hx; cases hx
  | cons a t ih =>
    intro x hx
    cases t with
    | nil =>
      simp at hx
      subst hx
      simp
    | cons b u =>
      have hlen : (a :: b :: u).length - 1 = u.length + 1 := by simp
      rw [hlen, List.getD_cons_succ]
      have hlen2 : (b :: u).length - 1 = u.length := by simp
      rcases List.mem_cons.mp hx with h | h
      · subst h
        have hmem := getD_last_mem (b :: u) (by simp)
        rw [hlen2] at hmem
        exact (List.sorted_cons.mp hs).1 _ hmem
      · have := ih (List.sorted_cons.mp hs).2 x h
        rw [hlen2] at this
        exact this

theorem calculate_percentile_zero (v : List ℚ) (hv : v ≠ []) :
    calculate_percentile v 0 = (List.insertionSort (· ≤ ·) v).getD 0 0 := by
  have hvI : v.isEmpty = false := by simp [hv]
  simp [calculate_percentile, hvI, pyInt, idxD]

theorem calculate_percentile_hundred (v : List ℚ) (hv : v ≠ []) :
    calculate_percentile v 100
      = (List.insertionSort (· ≤ ·) v).getD
          ((List.insertionSort (· ≤ ·) v).length - 1) 0 := by
  have hvI : v.isEmpty = false := by simp [hv]
  have hn : 1 ≤ (List.insertionSort (· ≤ ·) v).length := by
    rw [List.length_insertionSort]
    exact List.length_pos.mpr hv
  simp only [calculate_percentile, hvI, Bool.false_eq_true, if_false, Int.cast_natCast]
  set s := List.insertionSort (· ≤ ·) v with hsdef
  set r : ℚ := 100 / 100 * ((s.length : ℚ) - 1) with hrdef
  have hr : r = (((s.length : ℤ) - 1 : ℤ) : ℚ) := by rw [hrdef]; push_cast; ring
  have hr0 : ¬ r < 0 := by
    rw [hr]
    push_cast
    have : (1 : ℚ) ≤ (s.length : ℚ) := by exact_mod_cast hn
    linarith
  have hpy : pyInt r = (s.length : ℤ) - 1 := by
    rw [pyInt, if_neg hr0, hr, Int.floor_intCast]
  rw [hpy]
  have hfr : r - (((s.length : ℤ) - 1 : ℤ) : ℚ) = 0 := by rw [hr]; ring
  rw [hfr]
  have hmin : min ((s.length : ℤ) - 1 + 1) ((s.length : ℤ) - 1) = (s.length : ℤ) - 1 :=
    min_eq_right (by omega)
  rw [hmin, zero_mul, add_zero, idxD, if_neg (by omega)]
  congr 1
  omega

/-- C2: `calculate_percentile` computes exactly the standard
linear-interpolation percentile of a sorted copy (rank = p/100 * (n-1),
interpolating between the floor and ceil ranks) for every p between 0 and
100; p = 0 returns the minimum of the list, p = 100 the maximum, and the
empty list returns 0. -/
theorem C2_percentile (v : List ℚ) (p : ℚ) (h0 : 0 ≤ p) (h1 : p ≤ 100) :
    calculate_percentile v p = percentile_spec v p
    ∧ calculate_percentile ([] : List ℚ) p = 0
    ∧ (v ≠ [] →
        calculate_percentile v 0 ∈ v ∧ ∀ x ∈ v, calculate_percentile v 0 ≤ x)
    ∧ (v ≠ [] →
        calculate_percentile v 100 ∈ v ∧ ∀ x ∈ v, x ≤ calculate_percentile v 100) := by
  have hsorted : List.Sorted (· ≤ ·) (List.insertionSort (· ≤ ·) v) :=
    List.sorted_insertionSort (· ≤ ·) v
  refine ⟨percentile_code_eq_spec v p h0 h1, by simp [calculate_percentile],
    fun hv => ?_, fun hv => ?_⟩
  · have hne : List.insertionSort (· ≤ ·) v ≠ [] := by
      intro h
      apply hv
      have := congrArg List.length h
      simp only [List.length_insertionSort, List.length_nil] at this
      exact List.length_eq_zero.mp this
    rw [calculate_percentile_zero v hv]
    refine ⟨(List.mem_insertionSort (· ≤ ·)).mp (getD_zero_mem _ hne), fun x hx => ?_⟩
    exact sorted_getD_zero_le _ hsorted x ((List.mem_insertionSort (· ≤ ·)).mpr hx)
  · have hne : List.insertionSort (· ≤ ·) v ≠ [] := by
      intro h
      apply hv
      have := congrArg List.length h
      simp only [List.length_insertionSort, List.length_nil] at this
      exact List.length_eq_zero.mp this
    rw [calculate_percentile_hundred v hv]
    refine ⟨(List.mem_insertionSort (· ≤ ·)).mp (getD_last_mem _ hne), fun x hx => ?_⟩
    exact sorted_le_getD_last _ hsorted x ((List.mem_insertionSort (· ≤ ·)).mpr hx)

/-- C2 witness: a concrete three-element list at p = 50. -/
theorem C2_witness :
    calculate_percentile [3, 1, 2] 50 = percentile_spec [3, 1, 2] 50 :=
  (C2_percentile [3, 1, 2] 50 (by norm_num) (by norm_num)).1
